import Mathlib

/-!
# Verification development for the ingestion utility `server/ingest.py`

The repository is a batch ETL script: it classifies dropped files by
filename convention, extracts structured records from their text
(pipe-delimited lines, markdown argument blocks, fixed-window chunks),
inserts the records into database tables inside a per-file transaction,
and deletes the source file after a successful commit.

Shallow embedding conventions used below:

* Python strings are modelled as `List Char`; a Lean string literal `s`
  is injected via `s.data`.
* Pure Python functions (`parse_filename`, `chunk_text`,
  `extract_pipe_delimited`, `extract_arguments`) become executable Lean
  functions of the same name, translated clause by clause from the
  source, including the exact semantics of the regular expressions they
  use (leftmost search, greedy/lazy quantifiers, `re.MULTILINE` /
  `re.DOTALL` flags, Python `$`).
* Fallible code (`parse_filename` raising `ValueError`) returns
  `Option`.
* The stateful part (database connection, per-file transaction,
  deletion of the source file, the dispatcher loop of `main`) is
  modelled as explicit state passing over a small database state type;
  possible `psycopg2` failures are injected through an explicit failure
  oracle per file.
* The `while` loop of `chunk_text` has no termination guard in the
  source (it diverges when `overlap >= size`), so it is embedded with
  explicit fuel; termination statements are phrased as stabilisation of
  the fuel-indexed approximations.
-/

set_option maxRecDepth 10000

namespace Ingest

/-! ## Python string primitives -/

/-- The ASCII whitespace characters stripped by Python `str.strip()` and
matched by the regex class `\s` (unicode whitespace beyond ASCII is not
used by the repository's inputs and is outside the model). -/
def pySpace (c : Char) : Bool :=
  c = ' ' || c = '\t' || c = '\n' || c = '\r' || c = '\x0b' || c = '\x0c'

/-- Python `s.lstrip()`. -/
def lstrip (s : List Char) : List Char := s.dropWhile pySpace

/-- Python `s.rstrip()`. -/
def rstrip (s : List Char) : List Char := (s.reverse.dropWhile pySpace).reverse

/-- Python `s.strip()`. -/
def pyStrip (s : List Char) : List Char := rstrip (lstrip s)

/-- Python `s.lower()` on a string (ASCII case mapping). -/
def pyLower (s : List Char) : List Char := s.map Char.toLower

/-- The regex class `\w` (`[a-zA-Z0-9_]` on the ASCII plane). -/
def wordChar (c : Char) : Bool := c.isAlphanum || c = '_'

/-- Numeric value of a decimal digit string, Python `int(s)` for the
strings matched by `\d+`. -/
def digitsVal (s : List Char) : Nat :=
  s.foldl (fun a c => 10 * a + (c.toNat - '0'.toNat)) 0

/-- Python `s.split(sep, 1)` for a one-character separator: the part
before the first occurrence of `sep`, and — when `sep` occurs — the
remainder after it. -/
def splitOnce (sep : Char) : List Char → List Char × Option (List Char)
  | [] => ([], none)
  | c :: cs =>
    if c = sep then ([], some cs)
    else
      let r := splitOnce sep cs
      (c :: r.1, r.2)

/-- `filename.rsplit('.', 1)[0]`: the filename with its extension (the
part after the last dot) removed; the whole string when it has no dot. -/
def stripExt (s : List Char) : List Char :=
  match (splitOnce '.' s.reverse).2 with
  | some rest => rest.reverse
  | none => s

/-! ## `parse_filename` (`ingest.py` lines 20–26)

```python
def parse_filename(filename):
    name = filename.rsplit('.', 1)[0]
    if '_' not in name:
        raise ValueError(f"Invalid filename format: ...")
    parts = name.split('_', 1)
    thinker = parts[0].lower()
    return thinker
```

`none` models the raised `ValueError` (the spec's
`InvalidFilenameError`). -/
def parse_filename (filename : List Char) : Option (List Char) :=
  let name := stripExt filename
  if name.contains '_' then
    some (pyLower (splitOnce '_' name).1)
  else
    none

/-! ### Basic lemmas about the string primitives -/

theorem splitOnce_fst (sep : Char) (l : List Char) :
    (splitOnce sep l).1 = l.takeWhile (· != sep) := by
  induction l with
  | nil => rfl
  | cons c cs ih =>
    by_cases h : c = sep <;> simp [splitOnce, List.takeWhile_cons, h, ih]

theorem splitOnce_snd_some (sep : Char) (l : List Char) (r : List Char)
    (h : (splitOnce sep l).2 = some r) :
    r = (l.dropWhile (· != sep)).tail := by
  induction l with
  | nil => simp [splitOnce] at h
  | cons c cs ih =>
    by_cases hc : c = sep
    · simp [splitOnce, hc] at h
      simp [List.dropWhile_cons, hc, ← h]
    · simp [splitOnce, hc] at h
      simpa [List.dropWhile_cons, hc] using ih h

theorem mem_stripExt {c : Char} {s : List Char} (h : c ∈ stripExt s) :
    c ∈ s := by
  unfold stripExt at h
  cases h2 : (splitOnce '.' s.reverse).2 with
  | none => rw [h2] at h; exact h
  | some rest =>
    rw [h2] at h
    have hr := splitOnce_snd_some '.' s.reverse rest h2
    have h4 : c ∈ (s.reverse.dropWhile (· != '.')).tail := by
      rw [← hr]; exact List.mem_reverse.mp h
    have h3 : c ∈ s.reverse :=
      ((List.tail_sublist _).trans (List.dropWhile_sublist _)).mem h4
    exact List.mem_reverse.mp h3

theorem dropWhile_head_false {p : Char → Bool} :
    ∀ {l : List Char} {c : Char} {t : List Char},
      l.dropWhile p = c :: t → p c = false := by
  intro l
  induction l with
  | nil => intro c t h; simp at h
  | cons a as ih =>
    intro c t h
    by_cases ha : p a
    · rw [List.dropWhile_cons_of_pos ha] at h
      exact ih h
    · rw [List.dropWhile_cons_of_neg ha] at h
      cases h
      simpa using ha

theorem lstrip_head_false {l : List Char} {c : Char} {t : List Char}
    (h : lstrip l = c :: t) : pySpace c = false :=
  dropWhile_head_false h

theorem rstrip_eq_rdropWhile (l : List Char) :
    rstrip l = l.rdropWhile pySpace := rfl

/-- `rstrip` returns a prefix of its argument. -/
theorem rstrip_isPrefix (l : List Char) : rstrip l <+: l := by
  rw [rstrip_eq_rdropWhile]
  exact List.rdropWhile_prefix _ _

theorem rstrip_ne_nil {c : Char} {t : List Char} (hc : pySpace c = false) :
    rstrip (c :: t) ≠ [] := by
  rw [rstrip_eq_rdropWhile, Ne, List.rdropWhile_eq_nil_iff]
  intro h
  have := h c (List.mem_cons_self c t)
  simp [this] at hc

/-- The head of a non-empty stripped string is not whitespace. -/
theorem pyStrip_head_false {l : List Char} {c : Char} {t : List Char}
    (h : pyStrip l = c :: t) : pySpace c = false := by
  unfold pyStrip at h
  cases hl : lstrip l with
  | nil => rw [hl] at h; simp [rstrip] at h
  | cons a as =>
    rw [hl] at h
    have ha : pySpace a = false := lstrip_head_false hl
    rcases rstrip_isPrefix (a :: as) with ⟨r, hr⟩
    rw [h] at hr
    cases hr
    exact ha

/-- A string whose head is not whitespace strips to a non-empty string
whose head is unchanged. -/
theorem pyStrip_cons_ne_nil {c : Char} {t : List Char}
    (hc : pySpace c = false) : pyStrip (c :: t) ≠ [] := by
  unfold pyStrip
  rw [show lstrip (c :: t) = c :: t from List.dropWhile_cons_of_neg (by simp [hc])]
  exact rstrip_ne_nil hc

/-! ## Line and separator splitting -/

/-- Python `text.split('\n')`. -/
def splitNl : List Char → List (List Char)
  | [] => [[]]
  | c :: cs =>
    if c = '\n' then [] :: splitNl cs
    else
      match splitNl cs with
      | [] => [[c]]
      | p :: ps => (c :: p) :: ps

/-- Python `line.split(' | ')`: split on every (leftmost,
non-overlapping) occurrence of the three-character separator; the
recursion is driven by fuel to stay structural (each step consumes at
least one character, so the fuel supplied by `splitPipe` is never
exhausted). -/
def splitPipeF : Nat → List Char → List (List Char)
  | 0, l => [l]
  | _ + 1, [] => [[]]
  | fuel + 1, c :: cs =>
    if (c :: cs).take 3 = ' ' :: '|' :: ' ' :: [] then
      [] :: splitPipeF fuel (cs.drop 2)
    else
      match splitPipeF fuel cs with
      | [] => [[c]]
      | p :: ps => (c :: p) :: ps

def splitPipe (l : List Char) : List (List Char) :=
  splitPipeF (l.length + 1) l

/-- Python `' | ' in line`. -/
def containsSep : List Char → Bool
  | [] => false
  | c :: cs =>
    if (c :: cs).take 3 = ' ' :: '|' :: ' ' :: [] then true
    else containsSep cs

theorem splitNl_ne_nil (l : List Char) : splitNl l ≠ [] := by
  induction l with
  | nil => simp [splitNl]
  | cons c cs ih =>
    by_cases h : c = '\n'
    · simp [splitNl, h]
    · simp only [splitNl, if_neg h]
      cases hs : splitNl cs <;> simp

theorem splitPipeF_ne_nil : ∀ (fuel : Nat) (l : List Char),
    splitPipeF fuel l ≠ [] := by
  intro fuel
  induction fuel with
  | zero => intro l; simp [splitPipeF]
  | succ f ih =>
    intro l
    cases l with
    | nil => simp [splitPipeF]
    | cons c cs =>
      rw [splitPipeF]
      split
      · simp
      · split <;> simp

theorem splitPipe_ne_nil (l : List Char) : splitPipe l ≠ [] :=
  splitPipeF_ne_nil _ _

theorem take3_ne_sep {c : Char} {cs : List Char} (hc : c ≠ ' ') :
    ¬((c :: cs).take 3 = ' ' :: '|' :: ' ' :: []) := by
  intro h
  cases cs with
  | nil => simp at h
  | cons d ds =>
    cases ds with
    | nil => simp at h
    | cons e es =>
      simp only [List.take, List.cons.injEq] at h
      exact hc h.1

/-- The first segment of `splitPipe` keeps the head of the input when
the input does not begin with the separator. -/
theorem splitPipeF_head {c : Char} {cs : List Char} (hc : c ≠ ' ')
    (fuel : Nat) :
    ∃ p ps, splitPipeF (fuel + 1) (c :: cs) = (c :: p) :: ps := by
  rw [splitPipeF, if_neg (take3_ne_sep hc)]
  cases hs : splitPipeF fuel cs with
  | nil => exact ⟨[], [], rfl⟩
  | cons p ps => exact ⟨p, ps, rfl⟩

theorem splitPipe_head {c : Char} {cs : List Char} (hc : c ≠ ' ') :
    ∃ p ps, splitPipe (c :: cs) = (c :: p) :: ps := by
  unfold splitPipe
  rw [List.length_cons]
  exact splitPipeF_head hc (cs.length + 1)

/-! ## `extract_pipe_delimited` (`ingest.py` lines 51–72)

```python
def extract_pipe_delimited(text):
    lines = text.split('\n')
    entries = []
    for line in lines:
        line = line.strip()
        if not line or ' | ' not in line:
            continue
        parts = line.split(' | ')
        if len(parts) >= 2:
            thinker = parts[0].strip()
            content = parts[1].strip()
            topic = parts[2].strip() if len(parts) >= 3 else None
            entries.append({...})
    return entries
```
-/

structure PipeEntry where
  thinker : List Char
  content : List Char
  topic : Option (List Char)
deriving DecidableEq, Repr

/-- The body of the `for line in lines` loop: the entry appended for one
raw line, if any. -/
def lineEntry (rawLine : List Char) : Option PipeEntry :=
  let line := pyStrip rawLine
  if line = [] || !containsSep line then none
  else
    let parts := splitPipe line
    if 2 ≤ parts.length then
      some
        { thinker := pyStrip (parts.headD [])
          content := pyStrip (parts.tail.headD [])
          topic :=
            if 3 ≤ parts.length then some (pyStrip (parts.tail.tail.headD []))
            else none }
    else none

def extract_pipe_delimited (text : List Char) : List PipeEntry :=
  (splitNl text).filterMap lineEntry

/-! ## `chunk_text` (`ingest.py` lines 41–49)

```python
def chunk_text(text, chunk_size=CHUNK_SIZE, overlap=CHUNK_OVERLAP):
    chunks = []
    start = 0
    while start < len(text):
        end = start + chunk_size
        chunk = text[start:end]
        chunks.append(chunk.strip())
        start = end - overlap
    return [c for c in chunks if c]
```

The `while` loop has no termination guard (for `overlap >= size` it
never terminates), so the loop is embedded with explicit fuel; the
termination theorem below shows that for `overlap < size` the result
has stabilised at fuel `len(text) + 1`. -/

/-- Python slicing `text[start:stop]` for `0 ≤ start ≤ stop`. -/
def pySlice (l : List Char) (start stop : Nat) : List Char :=
  (l.drop start).take (stop - start)

/-- The `while start < len(text)` loop of `chunk_text`, collecting the
stripped raw windows in order; `fuel` bounds the number of iterations. -/
def chunkLoop (text : List Char) (size overlap : Nat) : Nat → Nat → List (List Char)
  | _, 0 => []
  | start, fuel + 1 =>
    if start < text.length then
      pyStrip (pySlice text start (start + size)) ::
        chunkLoop text size overlap (start + size - overlap) fuel
    else []

def chunk_text (text : List Char) (size overlap : Nat) : List (List Char) :=
  (chunkLoop text size overlap 0 (text.length + 1)).filter (fun c => c ≠ [])


theorem chunkLoop_zero (text : List Char) (size overlap start : Nat) :
    chunkLoop text size overlap start 0 = [] := rfl

theorem chunkLoop_succ (text : List Char) (size overlap start fuel : Nat) :
    chunkLoop text size overlap start (fuel + 1) =
      if start < text.length then
        pyStrip (pySlice text start (start + size)) ::
          chunkLoop text size overlap (start + size - overlap) fuel
      else [] := rfl

/-- With enough fuel the loop result no longer depends on the fuel
(this is the sense in which the `while` loop terminates for
`overlap < size`). -/
theorem chunkLoop_stable (text : List Char) (size overlap : Nat)
    (hso : overlap < size) :
    ∀ fuel start, text.length ≤ start + fuel * (size - overlap) →
      chunkLoop text size overlap start (fuel + 1) =
        chunkLoop text size overlap start fuel := by
  intro fuel
  induction fuel with
  | zero =>
    intro start h
    simp only [Nat.zero_mul, Nat.add_zero] at h
    rw [chunkLoop_succ, if_neg (by omega), chunkLoop_zero]
  | succ f ih =>
    intro start h
    rw [chunkLoop_succ text size overlap start (f + 1),
      chunkLoop_succ text size overlap start f]
    by_cases hs : start < text.length
    · rw [if_pos hs, if_pos hs]
      congr 1
      exact ih (start + size - overlap) (by
        have he : (f + 1) * (size - overlap) = (size - overlap) + f * (size - overlap) := by
          ring
        omega)
    · rw [if_neg hs, if_neg hs]

/-- Closed form of the loop: the windows are exactly the stripped slices
starting at offsets `start + j*(size-overlap)` for `j` ranging over the
remaining window count. -/
theorem chunkLoop_eq_range (text : List Char) (size overlap : Nat)
    (hso : overlap < size) :
    ∀ fuel start, text.length ≤ start + fuel * (size - overlap) →
      chunkLoop text size overlap start fuel =
        (List.range ((text.length - start + (size - overlap) - 1) / (size - overlap))).map
          (fun j => pyStrip (pySlice text (start + j * (size - overlap))
            (start + j * (size - overlap) + size))) := by
  intro fuel
  induction fuel with
  | zero =>
    intro start h
    simp only [Nat.zero_mul, Nat.add_zero] at h
    have h0 : text.length - start = 0 := by omega
    rw [chunkLoop_zero, h0, Nat.zero_add]
    have hd : ((size - overlap) - 1) / (size - overlap) = 0 :=
      Nat.div_eq_of_lt (by omega)
    rw [hd]
    simp
  | succ f ih =>
    intro start h
    by_cases hs : start < text.length
    · rw [chunkLoop_succ, if_pos hs]
      have hstep : 0 < size - overlap := by omega
      have hrec := ih (start + (size - overlap)) (by
        have he : (f + 1) * (size - overlap) = (size - overlap) + f * (size - overlap) := by
          ring
        omega)
      have harg : start + size - overlap = start + (size - overlap) := by omega
      rw [harg, hrec]
      have hn : (text.length - start + (size - overlap) - 1) / (size - overlap) =
          (text.length - (start + (size - overlap)) + (size - overlap) - 1) /
            (size - overlap) + 1 := by
        set step := size - overlap with hstepdef
        by_cases hr : text.length ≤ start + step
        · have h1 : text.length - (start + step) = 0 := by omega
          rw [h1, Nat.zero_add]
          have h2 : (step - 1) / step = 0 := Nat.div_eq_of_lt (by omega)
          rw [h2]
          have h3 : text.length - start + step - 1 < 2 * step := by omega
          have h4 : 1 * step ≤ text.length - start + step - 1 := by omega
          have := Nat.div_eq_of_lt_le h4 (by omega : text.length - start + step - 1 < (1 + 1) * step)
          omega
        · have h1 : text.length - start + step - 1 =
              (text.length - (start + step) + step - 1) + step := by omega
          rw [h1, Nat.add_div_right _ hstep]
      rw [hn, List.range_succ_eq_map]
      simp only [List.map_cons, List.map_map]
      congr 1
      · rw [Nat.zero_mul, Nat.add_zero]
      · apply List.map_congr_left
        intro j _
        simp only [Function.comp_apply]
        congr 2 <;> (rw [Nat.succ_eq_add_one]; ring)
    · rw [chunkLoop_succ, if_neg hs]
      have h0 : text.length - start = 0 := by omega
      rw [h0, Nat.zero_add]
      have hd : ((size - overlap) - 1) / (size - overlap) = 0 :=
        Nat.div_eq_of_lt (by omega)
      rw [hd]
      simp

/-! ## `extract_arguments` (`ingest.py` lines 128–184)

The function parses markdown argument blocks with five regular
expressions.  Each fixed pattern is hand-compiled below into an
executable matcher with Python `re` semantics (leftmost search, greedy
and lazy quantifiers with backtracking, `re.MULTILINE` for the premise
lines, `re.DOTALL` for the spans, Python `$` which also matches just
before a final newline). -/

/-- Match a literal at the start of the input, returning the remainder. -/
def dropLit : List Char → List Char → Option (List Char)
  | [], s => some s
  | _ :: _, [] => none
  | c :: cs, d :: ds => if d = c then dropLit cs ds else none

/-- Greedy `p+`: requires at least one matching character, then consumes
the maximal run, returning the remainder. -/
def dropWhilePlus (p : Char → Bool) : List Char → Option (List Char)
  | [] => none
  | c :: cs => if p c then some (cs.dropWhile p) else none

theorem dropLit_length {lit s r : List Char} (h : dropLit lit s = some r) :
    r.length + lit.length = s.length := by
  induction lit generalizing s with
  | nil => cases h; simp
  | cons c cs ih =>
    cases s with
    | nil => simp [dropLit] at h
    | cons d ds =>
      by_cases hd : d = c
      · simp only [dropLit, if_pos hd] at h
        have := ih h
        simp [List.length_cons]
        omega
      · simp [dropLit, hd] at h

theorem dropWhilePlus_length {p : Char → Bool} {s r : List Char}
    (h : dropWhilePlus p s = some r) : r.length < s.length := by
  cases s with
  | nil => simp [dropWhilePlus] at h
  | cons c cs =>
    by_cases hc : p c
    · simp only [dropWhilePlus, if_pos hc, Option.some.injEq] at h
      have hle : (cs.dropWhile p).length ≤ cs.length :=
        (List.dropWhile_sublist _).length_le
      simp [← h, List.length_cons]
      omega
    · simp [dropWhilePlus, hc] at h

/-- Attempt of the header pattern `###\s*Argument\s+\d+\s*\(([^)]+)\)`
at the current position; on success returns the captured type token and
the remainder after the match. -/
def matchHeader (s : List Char) : Option (List Char × List Char) :=
  (dropLit "###".data s).bind fun s1 =>
  (dropLit "Argument".data (s1.dropWhile pySpace)).bind fun s2 =>
  (dropWhilePlus pySpace s2).bind fun s3 =>
  (dropWhilePlus Char.isDigit s3).bind fun s4 =>
  match s4.dropWhile pySpace with
  | '(' :: s5 =>
    let cap := s5.takeWhile (fun c => !(c = ')'))
    match s5.dropWhile (fun c => !(c = ')')) with
    | ')' :: s6 => if cap = [] then none else some (cap, s6)
    | _ => none
  | _ => none

/-- The scanning loop of `re.split` over the header pattern, with the
one capture group: returns the preamble before the first header and the
list of `(captured type, following segment)` pairs, exactly the pairing
walked by the `while i < len(argument_blocks) - 1` loop of the source.
`fuel` is one more than the input length; the scanner consumes at least
one character per step, so the fuel never runs out. -/
def scanHeaders : Nat → List Char → List Char × List (List Char × List Char)
  | 0, s => (s, [])
  | _ + 1, [] => ([], [])
  | fuel + 1, c :: rest =>
    match matchHeader (c :: rest) with
    | some (cap, after) =>
      let r := scanHeaders fuel after
      ([], (cap, r.1) :: r.2)
    | none =>
      let r := scanHeaders fuel rest
      (c :: r.1, r.2)

/-- `re.search(r'\*\*Author:\*\*\s*(\w+)', block)` attempted at the
current position: the literal, maximal whitespace, then at least one
word character (the capture). -/
def matchAuthor (s : List Char) : Option (List Char) :=
  (dropLit "**Author:**".data s).bind fun s1 =>
  let s2 := s1.dropWhile pySpace
  let w := s2.takeWhile wordChar
  if w = [] then none else some w

/-- Leftmost search for the author pattern. -/
def searchAuthor : List Char → Option (List Char)
  | [] => none
  | c :: rest =>
    match matchAuthor (c :: rest) with
    | some w => some w
    | none => searchAuthor rest

/-- The terminator `(?:\*\*→|$)` of the premises span under `re.DOTALL`:
the literal `**→`, or Python `$` (end of string, or just before a final
newline). -/
def takeUntilArrow : List Char → Option (List Char)
  | [] => none
  | '*' :: '*' :: '→' :: _ => some []
  | c :: rest => (takeUntilArrow rest).map (fun t => c :: t)

/-- The lazy capture `(.*?)` of the premises regex: the span up to the
first `**→`, or — when there is none — up to Python `$`. -/
def premSpan (s : List Char) : List Char :=
  match takeUntilArrow s with
  | some cap => cap
  | none => if s.getLast? = some '\n' then s.dropLast else s

/-- `re.search(r'\*\*Premises:\*\*(.*?)(?:\*\*→|$)', block, re.DOTALL)`:
leftmost occurrence of the literal, then the lazy span. -/
def searchPremises : List Char → Option (List Char)
  | [] => none
  | c :: rest =>
    match dropLit "**Premises:**".data (c :: rest) with
    | some s1 => some (premSpan s1)
    | none => searchPremises rest

/-- One attempt of `^-\s*(.+)$` (`re.MULTILINE`) just after the leading
`-`: greedy `\s*` (which may cross newlines) followed by `(.+)$` with
backtracking.  Returns the capture and the remainder of the haystack
after the match end (the `$` position). -/
def premMatch (rest : List Char) : Option (List Char × List Char) :=
  match rest.dropWhile pySpace with
  | _ :: _ =>
    some ((rest.dropWhile pySpace).takeWhile (fun c => !(c = '\n')),
      (rest.dropWhile pySpace).dropWhile (fun c => !(c = '\n')))
  | [] =>
    match rest.reverse.dropWhile (fun c => c = '\n') with
    | c :: _ => some ([c], (rest.reverse.takeWhile (fun c => c = '\n')).reverse)
    | [] => none

theorem premMatch_length {rest cap rem : List Char}
    (h : premMatch rest = some (cap, rem)) : rem.length ≤ rest.length := by
  unfold premMatch at h
  cases hd : rest.dropWhile pySpace with
  | cons a as =>
    rw [hd] at h
    simp only [Option.some.injEq, Prod.mk.injEq] at h
    have h1 : rem.length ≤ (a :: as).length := by
      rw [← h.2]
      exact (List.dropWhile_sublist _).length_le
    have h2 : (a :: as).length ≤ rest.length := by
      rw [← hd]
      exact (List.dropWhile_sublist _).length_le
    omega
  | nil =>
    rw [hd] at h
    cases hr : rest.reverse.dropWhile (fun c => c = '\n') with
    | nil => rw [hr] at h; simp at h
    | cons c cs =>
      rw [hr] at h
      simp only [Option.some.injEq, Prod.mk.injEq] at h
      have h1 : rem.length ≤ rest.reverse.length := by
        rw [← h.2, List.length_reverse]
        exact (List.takeWhile_prefix _).length_le
      simpa using h1

/-- `re.findall(r'^-\s*(.+)$', span, re.MULTILINE)`: scan position by
position; a candidate needs line start (tracked by `atStart`) and a
literal `-`; after a match, scanning resumes at the match end.  The
scan is driven by fuel to stay structural; by `premMatch_length` every
step strictly shortens the haystack, so the fuel supplied by
`findPremLines` is never exhausted. -/
def findPremLinesF : Nat → List Char → Bool → List (List Char)
  | 0, _, _ => []
  | _ + 1, [], _ => []
  | fuel + 1, c :: rest, atStart =>
    if atStart && c = '-' then
      match premMatch rest with
      | some (cap, rem) => cap :: findPremLinesF fuel rem false
      | none => findPremLinesF fuel rest false
    else findPremLinesF fuel rest (c = '\n')

def findPremLines (s : List Char) (atStart : Bool) : List (List Char) :=
  findPremLinesF (s.length + 1) s atStart

/-- The terminator `(?:\n\n|\*Source|$)` of the conclusion regex, tested
at the position after the capture so far (`$` matches at the very end or
just before a final newline). -/
def concTermAt (l : List Char) : Bool :=
  ("\n\n".data).isPrefixOf l || ("*Source".data).isPrefixOf l ||
    l = [] || l = ['\n']

/-- The lazy capture `(.+?)` before the conclusion terminator: at least
one character, extended until the terminator matches. -/
def lazyCap : List Char → List Char
  | [] => []
  | c :: rest => if concTermAt rest then [c] else c :: lazyCap rest

/-- One attempt of
`\*\*→\s*Conclusion:\*\*\s*(.+?)(?:\n\n|\*Source|$)` (`re.DOTALL`): the
literals with greedy `\s*` in between, then the lazy capture; when the
final `\s*` reaches the end of the block the engine backtracks one
whitespace character so that `(.+?)` can still match it. -/
def matchConclusion (s : List Char) : Option (List Char) :=
  (dropLit "**→".data s).bind fun s1 =>
  (dropLit "Conclusion:**".data (s1.dropWhile pySpace)).bind fun s2 =>
  match s2.dropWhile pySpace with
  | c :: rest => some (lazyCap (c :: rest))
  | [] => (s2.getLast?).map (fun c => [c])

def searchConclusion : List Char → Option (List Char)
  | [] => none
  | c :: rest =>
    match matchConclusion (c :: rest) with
    | some cap => some cap
    | none => searchConclusion rest

/-- One attempt of `\*Source:\s*([^|]+)`: after the literal, greedy
`\s*`, then at least one non-`|` character captured greedily; when the
first non-whitespace character is `|` (or the whitespace runs to the end
of the block) the engine backtracks one whitespace character into the
capture. -/
def matchSource (s : List Char) : Option (List Char) :=
  (dropLit "*Source:".data s).bind fun s1 =>
  match s1.dropWhile pySpace with
  | c :: rest =>
    if c = '|' then ((s1.takeWhile pySpace).getLast?).map (fun w => [w])
    else some ((c :: rest).takeWhile (fun d => !(d = '|')))
  | [] => ((s1.takeWhile pySpace).getLast?).map (fun w => [w])

def searchSource : List Char → Option (List Char)
  | [] => none
  | c :: rest =>
    match matchSource (c :: rest) with
    | some cap => some cap
    | none => searchSource rest

/-- One attempt of `Importance:\s*(\d+)/10`: literal, greedy `\s*`, a
maximal non-empty digit run, then the literal `/10` (no shorter digit
run can be followed by `/`, so no further backtracking arises). -/
def matchImportance (s : List Char) : Option Nat :=
  (dropLit "Importance:".data s).bind fun s1 =>
  let s2 := s1.dropWhile pySpace
  let ds := s2.takeWhile Char.isDigit
  if ds = [] then none
  else if ("/10".data).isPrefixOf (s2.dropWhile Char.isDigit) then
    some (digitsVal ds)
  else none

def searchImportance : List Char → Option Nat
  | [] => none
  | c :: rest =>
    match matchImportance (c :: rest) with
    | some n => some n
    | none => searchImportance rest

/-- A record produced by `extract_arguments`; `premises` keeps the list
itself (the source serialises it with `json.dumps`, an injective
encoding immaterial to the claims). -/
structure ArgEntry where
  thinker : Option (List Char)
  argument_type : List Char
  premises : List (List Char)
  conclusion : List Char
  topic : Option (List Char)
  importance : Nat
deriving DecidableEq, Repr

/-- Lines 156–161: the premises of one block. -/
def premisesOf (block : List Char) : List (List Char) :=
  match searchPremises block with
  | some span => ((findPremLines span true).map pyStrip).filter (fun p => !(p = []))
  | none => []

/-- Lines 163–165: the conclusion of one block (empty string when the
regex does not match). -/
def conclusionOf (block : List Char) : List Char :=
  match searchConclusion block with
  | some cap => pyStrip cap
  | none => []

/-- Lines 167–169: the topic of one block. -/
def topicOf (block : List Char) : Option (List Char) :=
  (searchSource block).map pyStrip

/-- Lines 171–172: the importance of one block, defaulting to 5. -/
def importanceOf (block : List Char) : Nat :=
  (searchImportance block).getD 5

/-- Lines 152–154: the (optional) lowercased author of one block. -/
def thinkerOf (block : List Char) : Option (List Char) :=
  (searchAuthor block).map pyLower

/-- The body of the `while i < len(argument_blocks) - 1` loop for one
`(type, block)` pair: the record appended, if any (lines 148–182). -/
def parseBlock (ty block : List Char) : Option ArgEntry :=
  if premisesOf block ≠ [] ∧ conclusionOf block ≠ [] then
    some
      { thinker := thinkerOf block
        argument_type := pyLower (pyStrip ty)
        premises := premisesOf block
        conclusion := conclusionOf block
        topic := topicOf block
        importance := importanceOf block }
  else none

def extract_arguments (text : List Char) : List ArgEntry :=
  ((scanHeaders (text.length + 1) text).2).filterMap
    (fun pr => parseBlock pr.1 pr.2)

/-! ## Persistence and dispatcher model

The stateful side of the script (`psycopg2` connection, per-file
transaction, `os.remove`, the `for filename in files` loop of `main`,
lines 292–319) is embedded as explicit state passing:

* `Db` is the visible state of the single shared connection:
  `pending` are rows inserted in the currently open transaction,
  `committed` are rows made durable by `conn.commit()`.
* `cursor.execute("INSERT ...")` is `insertRec`; `conn.commit()` is
  `commitDb`; `conn.rollback()` (line 314) is `rollbackDb`.
* A `FileJob` is one file reduced to the list of rows its extractor
  produces (payloads are abstract) together with a failure oracle
  `FailMode` saying which database call, if any, raises
  (`psycopg2` errors are the only fallible calls modelled).
* The Boolean produced per file records whether `os.remove` ran
  (`true` = the file was deleted from disk). -/

structure Db where
  pending : List Nat
  committed : List Nat
deriving DecidableEq, Repr

def insertRec (db : Db) (r : Nat) : Db :=
  { db with pending := db.pending ++ [r] }

def commitDb (db : Db) : Db :=
  { pending := [], committed := db.committed ++ db.pending }

def rollbackDb (db : Db) : Db :=
  { db with pending := [] }

/-- Which database call of one file raises: none, the `k`-th insert
(counting from 0; a failing insert adds no row and aborts the per-file
function there), or the final commit. -/
inductive FailMode where
  | ok
  | insertFail (k : Nat)
  | commitFail
deriving DecidableEq, Repr

structure FileJob where
  recs : List Nat
  fm : FailMode
deriving DecidableEq, Repr

/-- Whether the failure oracle actually fires for this file (an
`insertFail k` beyond the number of rows never fires). -/
def FileJob.fails (j : FileJob) : Bool :=
  match j.fm with
  | .ok => false
  | .insertFail k => decide (k < j.recs.length)
  | .commitFail => true

/-- The insert loop (`for e in entries: cursor.execute(...)`); an
exception carries the state at the raise so that `main` can roll it
back. -/
def runInserts : List Nat → FailMode → Db → Except Db Db
  | [], _, db => .ok db
  | r :: rs, fm, db =>
    match fm with
    | .insertFail 0 => .error db
    | .insertFail (k + 1) => runInserts rs (.insertFail k) (insertRec db r)
    | f => runInserts rs f (insertRec db r)

/-- One `ingest_*_file` call: inserts, then `conn.commit()`, then
`os.remove` — the returned Boolean is whether the delete ran, and it is
reachable only after the commit succeeded. -/
def ingestFileModel (j : FileJob) (db : Db) : Except Db (Db × Bool) :=
  match runInserts j.recs j.fm db with
  | .error db1 => .error db1
  | .ok db1 =>
    match j.fm with
    | .commitFail => .error db1
    | _ => .ok (commitDb db1, true)

/-- The per-file body of `main`'s loop with its `except` handler (lines
309–315): on an exception, roll back and leave the file on disk. -/
def mainStep (db : Db) (j : FileJob) : Db × Bool :=
  match ingestFileModel j db with
  | .ok r => r
  | .error db1 => (rollbackDb db1, false)

/-- The `for filename in files` loop of `main`, returning the final
connection state and, per file in order, whether it was deleted. -/
def mainLoop (db : Db) : List FileJob → Db × List Bool
  | [] => (db, [])
  | j :: js =>
    let r := mainStep db j
    let rest := mainLoop r.1 js
    (rest.1, r.2 :: rest.2)

theorem foldl_insertRec_pending (recs : List Nat) :
    ∀ db : Db, (recs.foldl insertRec db).pending = db.pending ++ recs := by
  induction recs with
  | nil => intro db; simp
  | cons r rs ih =>
    intro db
    simp [List.foldl_cons, ih, insertRec]

theorem foldl_insertRec_committed (recs : List Nat) :
    ∀ db : Db, (recs.foldl insertRec db).committed = db.committed := by
  induction recs with
  | nil => intro db; simp
  | cons r rs ih =>
    intro db
    simp [List.foldl_cons, ih, insertRec]

theorem runInserts_ok (recs : List Nat) :
    ∀ db, runInserts recs .ok db = .ok (recs.foldl insertRec db) := by
  induction recs with
  | nil => intro db; rfl
  | cons r rs ih => intro db; simp [runInserts, List.foldl_cons, ih]

theorem runInserts_commitFail (recs : List Nat) :
    ∀ db, runInserts recs .commitFail db = .ok (recs.foldl insertRec db) := by
  induction recs with
  | nil => intro db; rfl
  | cons r rs ih => intro db; simp [runInserts, List.foldl_cons, ih]

theorem runInserts_insertFail (recs : List Nat) :
    ∀ k db, runInserts recs (.insertFail k) db =
      if k < recs.length then .error ((recs.take k).foldl insertRec db)
      else .ok (recs.foldl insertRec db) := by
  induction recs with
  | nil =>
    intro k db
    simp [runInserts]
  | cons r rs ih =>
    intro k db
    cases k with
    | zero => simp [runInserts]
    | succ k =>
      simp only [runInserts, ih, List.length_cons, List.take_succ_cons,
        List.foldl_cons]
      by_cases hk : k < rs.length
      · rw [if_pos hk, if_pos (by omega)]
      · rw [if_neg hk, if_neg (by omega)]

/-- Full characterisation of one dispatcher step from a clean
transaction state. -/
theorem mainStep_spec (j : FileJob) (db : Db) (h : db.pending = []) :
    (mainStep db j).1.pending = [] ∧
    (mainStep db j).2 = !j.fails ∧
    ((mainStep db j).2 = true →
      (mainStep db j).1.committed = db.committed ++ j.recs) ∧
    ((mainStep db j).2 = false →
      (mainStep db j).1.committed = db.committed) := by
  cases hfm : j.fm with
  | ok =>
    have hstep : mainStep db j = (commitDb (j.recs.foldl insertRec db), true) := by
      unfold mainStep ingestFileModel
      rw [hfm, runInserts_ok]
    rw [hstep]
    refine ⟨rfl, ?_, ?_, ?_⟩
    · simp [FileJob.fails, hfm]
    · intro _
      simp [commitDb, foldl_insertRec_committed, foldl_insertRec_pending, h]
    · intro hfalse
      simp at hfalse
  | commitFail =>
    have hstep : mainStep db j =
        (rollbackDb (j.recs.foldl insertRec db), false) := by
      unfold mainStep ingestFileModel
      rw [hfm, runInserts_commitFail]
    rw [hstep]
    refine ⟨rfl, ?_, ?_, ?_⟩
    · simp [FileJob.fails, hfm]
    · intro htrue
      simp at htrue
    · intro _
      simp [rollbackDb, foldl_insertRec_committed]
  | insertFail k =>
    by_cases hk : k < j.recs.length
    · have hstep : mainStep db j =
          (rollbackDb ((j.recs.take k).foldl insertRec db), false) := by
        unfold mainStep ingestFileModel
        rw [hfm, runInserts_insertFail, if_pos hk]
      rw [hstep]
      refine ⟨rfl, ?_, ?_, ?_⟩
      · simp [FileJob.fails, hfm, hk]
      · intro htrue
        simp at htrue
      · intro _
        simp [rollbackDb, foldl_insertRec_committed]
    · have hstep : mainStep db j =
          (commitDb (j.recs.foldl insertRec db), true) := by
        unfold mainStep ingestFileModel
        rw [hfm, runInserts_insertFail, if_neg hk]
      rw [hstep]
      refine ⟨rfl, ?_, ?_, ?_⟩
      · simp [FileJob.fails, hfm, hk]
      · intro _
        simp [commitDb, foldl_insertRec_committed, foldl_insertRec_pending, h]
      · intro hfalse
        simp at hfalse

theorem mainLoop_cons (db : Db) (j : FileJob) (js : List FileJob) :
    mainLoop db (j :: js) =
      ((mainLoop (mainStep db j).1 js).1,
        (mainStep db j).2 :: (mainLoop (mainStep db j).1 js).2) := rfl

/-- Full characterisation of the dispatcher loop: the deletion outcome
of each file depends only on that file, and exactly the rows of the
non-failing files are committed, in order. -/
theorem mainLoop_spec (jobs : List FileJob) :
    ∀ db : Db, db.pending = [] →
      (mainLoop db jobs).2 = jobs.map (fun j => !j.fails) ∧
      (mainLoop db jobs).1.committed =
        db.committed ++
          ((jobs.filter (fun j => !j.fails)).map FileJob.recs).flatten ∧
      (mainLoop db jobs).1.pending = [] := by
  induction jobs with
  | nil => intro db h; simp [mainLoop, h]
  | cons j js ih =>
    intro db h
    obtain ⟨hp, hd, hct, hcf⟩ := mainStep_spec j db h
    obtain ⟨ih1, ih2, ih3⟩ := ih (mainStep db j).1 hp
    rw [mainLoop_cons]
    refine ⟨?_, ?_, ?_⟩
    · simp [ih1, hd]
    · rw [ih2]
      by_cases hf : j.fails
      · rw [hcf (by rw [hd, hf]; rfl)]
        simp [List.filter_cons, hf]
      · rw [hct (by rw [hd]; simp [hf])]
        simp [List.filter_cons, hf, List.append_assoc]
    · exact ih3

/-! ## Row values inserted per file type

These definitions capture the values bound in the `cursor.execute`
calls (the `created_at` timestamp is incidental and omitted). -/

/-- Python `x or y` where `x` is a string: the empty string is falsy. -/
def pyOrStr (s dflt : List Char) : List Char :=
  if s = [] then dflt else s

/-- Python `x or y` where `x` is `None` or a string. -/
def pyOrOpt (v : Option (List Char)) (dflt : List Char) : List Char :=
  match v with
  | none => dflt
  | some s => pyOrStr s dflt

structure PosRow where
  thinker : List Char
  position_text : List Char
  topic : Option (List Char)
deriving DecidableEq, Repr

/-- The rows inserted by `ingest_positions_file` (lines 74–99);
`none` models the `ValueError` escaping from `parse_filename`
(the same shape serves `ingest_quotes_file`, lines 101–126, whose row
values are computed identically). -/
def ingest_positions_rows (filename text : List Char) : Option (List PosRow) :=
  (parse_filename filename).map fun tfn =>
    (extract_pipe_delimited text).map fun e =>
      { thinker := pyOrStr e.thinker tfn
        position_text := e.content
        topic := e.topic }

structure ArgRow where
  thinker : List Char
  argument_type : List Char
  premises : List (List Char)
  conclusion : List Char
  topic : Option (List Char)
  importance : Nat
deriving DecidableEq, Repr

/-- The rows inserted by `ingest_arguments_file` (lines 186–211): note
line 200, `thinker = e.get('thinker') or thinker_from_filename`. -/
def ingest_arguments_rows (filename text : List Char) : Option (List ArgRow) :=
  (parse_filename filename).map fun tfn =>
    (extract_arguments text).map fun e =>
      { thinker := pyOrOpt e.thinker tfn
        argument_type := e.argument_type
        premises := e.premises
        conclusion := e.conclusion
        topic := e.topic
        importance := e.importance }

structure ChunkRow where
  thinker : List Char
  source_file : List Char
  chunk_text : List Char
  chunk_index : Nat
deriving DecidableEq, Repr

/-- Lines 217–219 of `ingest_chunks_file`:
`name = filename.rsplit('.', 1)[0]`, `parts = name.split('_', 1)`,
`source_file = parts[1] if len(parts) > 1 else name`. -/
def source_file_of (filename : List Char) : List Char :=
  match (splitOnce '_' (stripExt filename)).2 with
  | some rest => rest
  | none => stripExt filename

/-- The rows inserted by `ingest_chunks_file` (lines 213–241), with the
module constants `CHUNK_SIZE = 1000`, `CHUNK_OVERLAP = 100`. -/
def ingest_chunks_rows (filename text : List Char) : Option (List ChunkRow) :=
  (parse_filename filename).map fun tfn =>
    (chunk_text text 1000 100).enum.map fun p =>
      { thinker := tfn
        source_file := source_file_of filename
        chunk_text := p.2
        chunk_index := p.1 }

/-! ## Claim theorems -/

/-- C8: for every filename containing no underscore, classification
fails with `InvalidFilenameError` (`parse_filename` raises, modelled by
`none`); and whenever classification succeeds, the derived thinker
equals the lowercased text before the first underscore of the filename
with its extension removed. -/
theorem claim_C8_parse_filename (filename : List Char) :
    (filename.contains '_' = false → parse_filename filename = none) ∧
    (∀ t, parse_filename filename = some t →
      t = pyLower ((stripExt filename).takeWhile (· != '_'))) := by
  constructor
  · intro h
    have hcnot : ¬((stripExt filename).contains '_' = true) := by
      intro hc
      have h1 : '_' ∈ stripExt filename := by simpa using hc
      have h2 : filename.contains '_' = true := by
        simpa using mem_stripExt h1
      rw [h2] at h
      exact absurd h (by simp)
    unfold parse_filename
    rw [if_neg hcnot]
  · intro t ht
    unfold parse_filename at ht
    by_cases hc : (stripExt filename).contains '_' = true
    · rw [if_pos hc] at ht
      rw [← Option.some_inj.mp ht, splitOnce_fst]
    · rw [if_neg hc] at ht
      exact absurd ht (by simp)

/-- Witness for C8 at the concrete filenames `kant.txt` and
`kant_works_1.txt`. -/
theorem claim_C8_witness :
    ("kant.txt".data.contains '_' = false ∧
      parse_filename "kant.txt".data = none) ∧
    (parse_filename "kant_works_1.txt".data = some "kant".data ∧
      "kant".data =
        pyLower ((stripExt "kant_works_1.txt".data).takeWhile (· != '_'))) :=
  ⟨⟨by decide, (claim_C8_parse_filename "kant.txt".data).1 (by decide)⟩,
    by decide,
    (claim_C8_parse_filename "kant_works_1.txt".data).2 "kant".data (by decide)⟩

/-- C7: for every text and every `(size, overlap)` with
`overlap < size` the chunking `while` loop terminates — its fuel-indexed
approximations are already stable at fuel `len(text) + 1` — and the
number of produced windows is at most `⌈len(text) / (size-overlap)⌉`. -/
theorem claim_C7_chunk_termination (text : List Char) (size overlap : Nat)
    (h : overlap < size) :
    (∀ extra, chunkLoop text size overlap 0 (text.length + 1 + extra) =
      chunkLoop text size overlap 0 (text.length + 1)) ∧
    (chunk_text text size overlap).length ≤
      (text.length + (size - overlap) - 1) / (size - overlap) := by
  have hstep : 0 < size - overlap := by omega
  have hfuel : ∀ f : Nat, text.length ≤ f →
      text.length ≤ 0 + f * (size - overlap) := by
    intro f hf
    have h1 : f ≤ f * (size - overlap) := Nat.le_mul_of_pos_right f hstep
    omega
  constructor
  · intro extra
    induction extra with
    | zero => rfl
    | succ e ih =>
      have he : text.length + 1 + (e + 1) = (text.length + 1 + e) + 1 := by omega
      rw [he, chunkLoop_stable text size overlap h (text.length + 1 + e) 0
        (hfuel _ (by omega)), ih]
  · unfold chunk_text
    have hcf := chunkLoop_eq_range text size overlap h (text.length + 1) 0
      (hfuel _ (by omega))
    calc ((chunkLoop text size overlap 0 (text.length + 1)).filter
          (fun c => c ≠ [])).length
        ≤ (chunkLoop text size overlap 0 (text.length + 1)).length :=
          List.length_filter_le _ _
      _ ≤ (text.length + (size - overlap) - 1) / (size - overlap) := by
          rw [hcf]
          simp [List.length_map, List.length_range]

/-- Witness for C7 at the concrete text `"ab"`, `size = 2`,
`overlap = 1`. -/
theorem claim_C7_witness :
    chunkLoop "ab".data 2 1 0 ("ab".data.length + 1 + 5) =
      chunkLoop "ab".data 2 1 0 ("ab".data.length + 1) ∧
    (chunk_text "ab".data 2 1).length ≤
      ("ab".data.length + (2 - 1) - 1) / (2 - 1) :=
  ⟨(claim_C7_chunk_termination "ab".data 2 1 (by decide)).1 5,
    (claim_C7_chunk_termination "ab".data 2 1 (by decide)).2⟩

/-- C6: with `size = 1000`, `overlap = 100` the loop produces the
stripped windows at raw start offsets `i*(size-overlap)` while the
start is below the text length (first conjunct, for every text); for a
text of length 2500 these offsets are exactly 0, 900, 1800, and
`chunk_text` keeps the trimmed windows that are non-empty. -/
theorem claim_C6_chunk_offsets (text : List Char) (h : text.length = 2500) :
    (∀ t : List Char, chunkLoop t 1000 100 0 (t.length + 1) =
      (List.range ((t.length + 899) / 900)).map
        (fun i => pyStrip (pySlice t (i * 900) (i * 900 + 1000)))) ∧
    (text.length + 899) / 900 = 3 ∧
    (List.range 3).map (fun i => i * 900) = [0, 900, 1800] ∧
    chunk_text text 1000 100 =
      ((List.range 3).map
        (fun i => pyStrip (pySlice text (i * 900) (i * 900 + 1000)))).filter
        (fun c => c ≠ []) := by
  have hgen : ∀ t : List Char, chunkLoop t 1000 100 0 (t.length + 1) =
      (List.range ((t.length + 899) / 900)).map
        (fun i => pyStrip (pySlice t (i * 900) (i * 900 + 1000))) := by
    intro t
    have hr := chunkLoop_eq_range t 1000 100 (by omega) (t.length + 1) 0
      (by omega)
    simpa using hr
  have hcount : (text.length + 899) / 900 = 3 := by rw [h]
  refine ⟨hgen, hcount, by decide, ?_⟩
  unfold chunk_text
  rw [hgen text, hcount]

/-- Witness for C6, at the 2500-character all-blank text (all its
windows trim to empty, so `chunk_text` returns no chunks). -/
theorem claim_C6_witness :
    (List.replicate 2500 ' ').length = 2500 ∧
    chunk_text (List.replicate 2500 ' ') 1000 100 =
      ((List.range 3).map
        (fun i => pyStrip (pySlice (List.replicate 2500 ' ')
          (i * 900) (i * 900 + 1000)))).filter (fun c => c ≠ []) :=
  ⟨by rw [List.length_replicate],
    (claim_C6_chunk_offsets (List.replicate 2500 ' ')
      (by rw [List.length_replicate])).2.2.2⟩

/-- C2: from a clean transaction state, a processed file is deleted
exactly when no database call raised; when it is deleted all of its
rows (and nothing else) were committed, and when an exception fired
the transaction was rolled back (nothing new committed, no pending
rows) and the file stays on disk. -/
theorem claim_C2_delete_iff_commit (j : FileJob) (db : Db)
    (h : db.pending = []) :
    ((mainStep db j).2 = true →
      (mainStep db j).1.committed = db.committed ++ j.recs) ∧
    ((mainStep db j).2 = false →
      (mainStep db j).1.committed = db.committed ∧
        (mainStep db j).1.pending = []) ∧
    (mainStep db j).2 = !j.fails := by
  obtain ⟨hp, hd, hct, hcf⟩ := mainStep_spec j db h
  exact ⟨hct, fun hf => ⟨hcf hf, hp⟩, hd⟩

/-- Witness for C2 at a concrete two-row file that commits cleanly. -/
theorem claim_C2_witness :
    (Db.mk [] [0]).pending = [] ∧
    (((mainStep (Db.mk [] [0]) (FileJob.mk [1, 2] .ok)).2 = true →
      (mainStep (Db.mk [] [0]) (FileJob.mk [1, 2] .ok)).1.committed =
        (Db.mk [] [0]).committed ++ [1, 2]) ∧
    ((mainStep (Db.mk [] [0]) (FileJob.mk [1, 2] .ok)).2 = false →
      (mainStep (Db.mk [] [0]) (FileJob.mk [1, 2] .ok)).1.committed =
        (Db.mk [] [0]).committed ∧
        (mainStep (Db.mk [] [0]) (FileJob.mk [1, 2] .ok)).1.pending = []) ∧
    (mainStep (Db.mk [] [0]) (FileJob.mk [1, 2] .ok)).2 =
      !(FileJob.mk [1, 2] .ok).fails) :=
  ⟨rfl, claim_C2_delete_iff_commit (FileJob.mk [1, 2] .ok) (Db.mk [] [0]) rfl⟩

/-- C3: one failing file never aborts the batch — each file of a batch
is deleted exactly when its own database calls succeed, independently
of earlier failures; the committed rows are exactly those of the
non-failing files in order; and the connection ends every file with a
clean transaction state (the rollback of line 314). -/
theorem claim_C3_failure_isolation (db : Db) (jobs : List FileJob)
    (h : db.pending = []) :
    (mainLoop db jobs).2 = jobs.map (fun j => !j.fails) ∧
    (mainLoop db jobs).1.committed =
      db.committed ++
        ((jobs.filter (fun j => !j.fails)).map FileJob.recs).flatten ∧
    (mainLoop db jobs).1.pending = [] :=
  mainLoop_spec jobs db h

/-- Witness for C3 at the two-file scenario of the spec: the first file
raises at commit, the second is well-formed; the second is still
processed and deleted, the first is not deleted and nothing of it is
committed. -/
theorem claim_C3_witness :
    (Db.mk [] []).pending = [] ∧
    (mainLoop (Db.mk [] [])
      [FileJob.mk [1] .commitFail, FileJob.mk [2] .ok]).2 =
      [FileJob.mk [1] .commitFail, FileJob.mk [2] .ok].map
        (fun j => !j.fails) ∧
    (mainLoop (Db.mk [] [])
      [FileJob.mk [1] .commitFail, FileJob.mk [2] .ok]).1.committed =
      (Db.mk [] []).committed ++
        (([FileJob.mk [1] .commitFail, FileJob.mk [2] .ok].filter
          (fun j => !j.fails)).map FileJob.recs).flatten ∧
    (mainLoop (Db.mk [] [])
      [FileJob.mk [1] .commitFail, FileJob.mk [2] .ok]).1.pending = [] :=
  ⟨rfl, claim_C3_failure_isolation (Db.mk [] [])
    [FileJob.mk [1] .commitFail, FileJob.mk [2] .ok] rfl⟩

/-! ### Lemmas about `lineEntry` -/

theorem containsSep_splitPipeF_len :
    ∀ (fuel : Nat) (l : List Char), l.length < fuel →
      containsSep l = true → 2 ≤ (splitPipeF fuel l).length := by
  intro fuel
  induction fuel with
  | zero => intro l hl _; exact absurd hl (Nat.not_lt_zero _)
  | succ f ih =>
    intro l hl hc
    cases l with
    | nil => simp [containsSep] at hc
    | cons c cs =>
      by_cases hsep : (c :: cs).take 3 = ' ' :: '|' :: ' ' :: []
      · rw [splitPipeF, if_pos hsep]
        cases hs : splitPipeF f (cs.drop 2) with
        | nil => exact absurd hs (splitPipeF_ne_nil _ _)
        | cons p ps => simp
      · rw [containsSep, if_neg hsep] at hc
        have hl2 : cs.length < f := by
          rw [List.length_cons] at hl
          omega
        have h2 := ih cs hl2 hc
        rw [splitPipeF, if_neg hsep]
        cases hs : splitPipeF f cs with
        | nil => exact absurd hs (splitPipeF_ne_nil _ _)
        | cons p ps =>
          rw [hs] at h2
          simpa using h2

theorem containsSep_splitPipe_len {l : List Char}
    (h : containsSep l = true) : 2 ≤ (splitPipe l).length :=
  containsSep_splitPipeF_len (l.length + 1) l (by omega) h

/-- A raw line contributes no entry exactly when it strips to the empty
string or lacks the delimiter (the `len(parts) >= 2` guard never fires:
a line containing the delimiter always splits into at least two
parts). -/
theorem lineEntry_eq_none_iff (raw : List Char) :
    lineEntry raw = none ↔
      (pyStrip raw = [] ∨ containsSep (pyStrip raw) = false) := by
  unfold lineEntry
  by_cases h1 : pyStrip raw = []
  · simp [h1]
  · by_cases h2 : containsSep (pyStrip raw)
    · have hlen : 2 ≤ (splitPipe (pyStrip raw)).length :=
        containsSep_splitPipe_len h2
      simp [h1, h2, hlen]
    · have h2f : containsSep (pyStrip raw) = false := by simpa using h2
      simp [h1, h2f]

/-- The fields of an emitted entry, in terms of the split parts of the
stripped line. -/
theorem lineEntry_some_fields {raw : List Char} {e : PipeEntry}
    (h : lineEntry raw = some e) :
    pyStrip raw ≠ [] ∧ containsSep (pyStrip raw) = true ∧
    e.thinker = pyStrip ((splitPipe (pyStrip raw)).headD []) ∧
    e.content = pyStrip ((splitPipe (pyStrip raw)).tail.headD []) ∧
    e.topic = (if 3 ≤ (splitPipe (pyStrip raw)).length then
      some (pyStrip ((splitPipe (pyStrip raw)).tail.tail.headD []))
      else none) := by
  unfold lineEntry at h
  by_cases h1 : pyStrip raw = []
  · simp [h1] at h
  · by_cases h2 : containsSep (pyStrip raw)
    · have h3 : 2 ≤ (splitPipe (pyStrip raw)).length :=
        containsSep_splitPipe_len h2
      rw [if_neg (by simp [h1, h2]), if_pos h3] at h
      cases h
      exact ⟨h1, h2, rfl, rfl, rfl⟩
    · have h2f : containsSep (pyStrip raw) = false := by simpa using h2
      rw [if_pos (by simp [h1, h2f])] at h
      cases h

theorem splitNl_cons_ne {c : Char} {cs : List Char} (hc : ¬c = '\n') :
    splitNl (c :: cs) = match splitNl cs with
      | [] => [[c]]
      | p :: ps => (c :: p) :: ps := by
  rw [splitNl, if_neg hc]

theorem splitNl_append (t1 t2 : List Char) :
    splitNl (t1 ++ '\n' :: t2) = splitNl t1 ++ splitNl t2 := by
  induction t1 with
  | nil => simp [splitNl]
  | cons c cs ih =>
    by_cases hc : c = '\n'
    · simp [splitNl, hc, ih]
    · cases hs : splitNl cs with
      | nil => exact absurd hs (splitNl_ne_nil cs)
      | cons p ps =>
        rw [List.cons_append, splitNl_cons_ne hc, splitNl_cons_ne hc, ih, hs]
        rfl

theorem extract_pipe_append (t1 t2 : List Char) :
    extract_pipe_delimited (t1 ++ '\n' :: t2) =
      extract_pipe_delimited t1 ++ extract_pipe_delimited t2 := by
  unfold extract_pipe_delimited
  rw [splitNl_append, List.filterMap_append]

/-- C5: `extract_pipe_delimited` considers only lines that are
non-empty after trimming and contain the delimiter; a qualifying line
is split into at most three semantic fields — a two-field line yields
a null topic, a three-field line yields all three populated, any
further fields are dropped; non-qualifying lines are excluded; and the
output order follows the line order (splitting the text at a newline
splits the output accordingly). -/
theorem claim_C5_pipe_delimited :
    (∀ raw, lineEntry raw = none ↔
      (pyStrip raw = [] ∨ containsSep (pyStrip raw) = false)) ∧
    (∀ raw e, lineEntry raw = some e →
      e.thinker = pyStrip ((splitPipe (pyStrip raw)).headD []) ∧
      e.content = pyStrip ((splitPipe (pyStrip raw)).tail.headD []) ∧
      e.topic = (if 3 ≤ (splitPipe (pyStrip raw)).length then
        some (pyStrip ((splitPipe (pyStrip raw)).tail.tail.headD []))
        else none)) ∧
    lineEntry "a | b".data = some ⟨"a".data, "b".data, none⟩ ∧
    lineEntry "a | b | c".data =
      some ⟨"a".data, "b".data, some "c".data⟩ ∧
    lineEntry "a | b | c | d".data =
      some ⟨"a".data, "b".data, some "c".data⟩ ∧
    lineEntry "no delimiter here".data = none ∧
    lineEntry "   ".data = none ∧
    (∀ text : List Char, extract_pipe_delimited text =
      (splitNl text).filterMap lineEntry) ∧
    (∀ t1 t2 : List Char, extract_pipe_delimited (t1 ++ '\n' :: t2) =
      extract_pipe_delimited t1 ++ extract_pipe_delimited t2) := by
  refine ⟨lineEntry_eq_none_iff, ?_, by decide, by decide, by decide,
    by decide, by decide, fun _ => rfl, extract_pipe_append⟩
  intro raw e h
  obtain ⟨_, _, ht, hc, htp⟩ := lineEntry_some_fields h
  exact ⟨ht, hc, htp⟩

/-- Witness for C5 at a concrete two-line text. -/
theorem claim_C5_witness :
    lineEntry "a | b".data = some ⟨"a".data, "b".data, none⟩ ∧
    extract_pipe_delimited ("a | b".data ++ '\n' :: "x | y | z".data) =
      extract_pipe_delimited "a | b".data ++
        extract_pipe_delimited "x | y | z".data :=
  ⟨claim_C5_pipe_delimited.2.2.1,
    claim_C5_pipe_delimited.2.2.2.2.2.2.2.2 "a | b".data "x | y | z".data⟩

/-- C9: every entry produced by `extract_pipe_delimited` has a
non-empty thinker (the segment before the first delimiter of a trimmed
qualifying line cannot be empty after stripping), so the
`e.get('thinker') or thinker_from_filename` fallback of
`ingest_positions_file` and `ingest_quotes_file` is never taken: the
inserted thinkers are exactly the extracted ones. -/
theorem claim_C9_thinker_nonempty (text : List Char) :
    (∀ e ∈ extract_pipe_delimited text,
      e.thinker ≠ [] ∧ ∀ tfn, pyOrStr e.thinker tfn = e.thinker) ∧
    (∀ filename rows, ingest_positions_rows filename text = some rows →
      rows.map PosRow.thinker =
        (extract_pipe_delimited text).map PipeEntry.thinker) := by
  have hmain : ∀ e ∈ extract_pipe_delimited text, e.thinker ≠ [] := by
    intro e he
    obtain ⟨raw, _, hline⟩ := List.mem_filterMap.mp he
    obtain ⟨hne, hsep, ht, _, _⟩ := lineEntry_some_fields hline
    cases hl : pyStrip raw with
    | nil => exact absurd hl hne
    | cons c t =>
      have hcs : pySpace c = false := pyStrip_head_false hl
      have hcsp : c ≠ ' ' := by
        intro hceq
        rw [hceq] at hcs
        simp [pySpace] at hcs
      obtain ⟨p, ps, hsplit⟩ := @splitPipe_head c t hcsp
      rw [ht, hl, hsplit]
      exact pyStrip_cons_ne_nil hcs
  constructor
  · intro e he
    refine ⟨hmain e he, ?_⟩
    intro tfn
    unfold pyOrStr
    rw [if_neg (hmain e he)]
  · intro filename rows h
    unfold ingest_positions_rows at h
    cases hp : parse_filename filename with
    | none => rw [hp] at h; simp at h
    | some tfn =>
      rw [hp] at h
      have h2 : ((extract_pipe_delimited text).map fun e =>
          ({ thinker := pyOrStr e.thinker tfn, position_text := e.content,
             topic := e.topic } : PosRow)) = rows := by
        simpa using h
      rw [← h2, List.map_map]
      apply List.map_congr_left
      intro e he
      simp only [Function.comp_apply]
      unfold pyOrStr
      rw [if_neg (hmain e he)]

/-- Witness for C9 at a concrete text and filename. -/
theorem claim_C9_witness :
    (⟨"a".data, "b".data, none⟩ : PipeEntry) ∈
      extract_pipe_delimited "a | b".data ∧
    ("a".data ≠ [] ∧ ∀ tfn, pyOrStr "a".data tfn = "a".data) ∧
    ingest_positions_rows "kant_positions_1.txt".data "a | b".data =
      some [⟨"a".data, "b".data, none⟩] ∧
    ([⟨"a".data, "b".data, none⟩] : List PosRow).map PosRow.thinker =
      (extract_pipe_delimited "a | b".data).map PipeEntry.thinker := by
  have hm : (⟨"a".data, "b".data, none⟩ : PipeEntry) ∈
      extract_pipe_delimited "a | b".data := by decide
  have hr : ingest_positions_rows "kant_positions_1.txt".data "a | b".data =
      some [⟨"a".data, "b".data, none⟩] := by decide
  exact ⟨hm, (claim_C9_thinker_nonempty "a | b".data).1 _ hm,
    hr, (claim_C9_thinker_nonempty "a | b".data).2
      "kant_positions_1.txt".data _ hr⟩

/-! ### Lemmas for the chunks source file derivation -/

theorem splitOnce_snd_of_contains {sep : Char} : ∀ {l : List Char},
    l.contains sep = true → ∃ r, (splitOnce sep l).2 = some r := by
  intro l
  induction l with
  | nil => intro h; simp at h
  | cons c cs ih =>
    intro h
    by_cases hc : c = sep
    · exact ⟨cs, by simp [splitOnce, hc]⟩
    · have h2 : cs.contains sep = true := by
        simp only [List.contains_cons] at h
        rcases Bool.or_eq_true_iff.mp h with h3 | h3
        · exact absurd (show c = sep from (by simpa using h3 : sep = c).symm) hc
        · exact h3
      obtain ⟨r, hr⟩ := ih h2
      exact ⟨r, by simp [splitOnce, hc, hr]⟩

theorem stripExt_length_le (s : List Char) :
    (stripExt s).length ≤ s.length := by
  unfold stripExt
  cases h2 : (splitOnce '.' s.reverse).2 with
  | none => exact Nat.le_refl _
  | some rest =>
    have hr := splitOnce_snd_some '.' s.reverse rest h2
    have h1 : rest.length ≤ s.reverse.length := by
      rw [hr]
      exact ((List.tail_sublist _).trans (List.dropWhile_sublist _)).length_le
    rw [List.length_reverse] at h1
    simpa using h1

/-- C10: every chunk row inserted for a chunks-type file stores as
`source_file` the filename with its extension removed and everything up
to and including the first underscore removed — a strictly shorter
string than the original filename, never the full filename. -/
theorem claim_C10_chunk_source_file (filename text : List Char)
    (rows : List ChunkRow)
    (h : ingest_chunks_rows filename text = some rows) :
    ∀ r ∈ rows,
      r.source_file = ((stripExt filename).dropWhile (· != '_')).tail ∧
      r.source_file.length < filename.length ∧
      r.source_file ≠ filename := by
  have hsf : (parse_filename filename).isSome →
      source_file_of filename =
        ((stripExt filename).dropWhile (· != '_')).tail ∧
      (source_file_of filename).length < filename.length := by
    intro hps
    have hcont : (stripExt filename).contains '_' = true := by
      unfold parse_filename at hps
      by_cases hc : (stripExt filename).contains '_' = true
      · exact hc
      · rw [if_neg hc] at hps
        simp at hps
    obtain ⟨rest, hrest⟩ := splitOnce_snd_of_contains hcont
    have hval : source_file_of filename = rest := by
      unfold source_file_of
      rw [hrest]
    have htail := splitOnce_snd_some '_' (stripExt filename) rest hrest
    have hmem : '_' ∈ stripExt filename := by simpa using hcont
    have hdw : (stripExt filename).dropWhile (· != '_') ≠ [] := by
      rw [Ne, List.dropWhile_eq_nil_iff]
      intro hall
      have := hall '_' hmem
      simp at this
    have hlen : rest.length < filename.length := by
      cases hd : (stripExt filename).dropWhile (· != '_') with
      | nil => exact absurd hd hdw
      | cons d ds =>
        have h1 : ds.length < (stripExt filename).length := by
          have h2 : (d :: ds).length ≤ (stripExt filename).length := by
            rw [← hd]
            exact (List.dropWhile_sublist _).length_le
          rw [List.length_cons] at h2
          omega
        have h3 : rest = ds := by rw [htail, hd]; rfl
        have h4 := stripExt_length_le filename
        -- the filename must contain a character for the underscore
        have h5 : 1 ≤ filename.length := by
          have h6 : '_' ∈ filename := mem_stripExt hmem
          cases filename with
          | nil => simp at h6
          | cons a as => simp [List.length_cons]
        rw [h3]
        omega
    refine ⟨?_, ?_⟩
    · rw [hval]
      exact htail
    · rw [hval]
      exact hlen
  intro r hr
  unfold ingest_chunks_rows at h
  cases hp : parse_filename filename with
  | none => rw [hp] at h; simp at h
  | some tfn =>
    rw [hp] at h
    have h2 : ((chunk_text text 1000 100).enum.map fun p =>
        ({ thinker := tfn, source_file := source_file_of filename,
           chunk_text := p.2, chunk_index := p.1 } : ChunkRow)) = rows := by
      simpa using h
    rw [← h2] at hr
    obtain ⟨p, _, hpr⟩ := List.mem_map.mp hr
    obtain ⟨hs1, hs2⟩ := hsf (by rw [hp]; rfl)
    have hsrc : r.source_file = source_file_of filename := by
      rw [← hpr]
    rw [hsrc, hs1]
    refine ⟨rfl, ?_, ?_⟩
    · rw [← hs1]
      exact hs2
    · intro heq
      have := hs2
      rw [hs1, heq] at this
      exact absurd this (by omega)

/-- Witness for C10 at `kant_notes_2.txt`: the stored source file is
`notes_2`, not the original filename. -/
theorem claim_C10_witness :
    ingest_chunks_rows "kant_notes_2.txt".data "hi".data =
      some [⟨"kant".data, "notes_2".data, "hi".data, 0⟩] ∧
    "notes_2".data =
      ((stripExt "kant_notes_2.txt".data).dropWhile (· != '_')).tail ∧
    "notes_2".data ≠ "kant_notes_2.txt".data := by
  have hr : ingest_chunks_rows "kant_notes_2.txt".data "hi".data =
      some [⟨"kant".data, "notes_2".data, "hi".data, 0⟩] := by decide
  have hall := claim_C10_chunk_source_file "kant_notes_2.txt".data "hi".data
    [⟨"kant".data, "notes_2".data, "hi".data, 0⟩] hr
    ⟨"kant".data, "notes_2".data, "hi".data, 0⟩ (by simp)
  exact ⟨hr, hall.1, hall.2.2⟩

/-! ### Concrete argument texts for the emission claims -/

/-- A well-formed block: two premises, a conclusion, an importance
token `7/10`. -/
def argTextTwoPrem : List Char :=
  ("### Argument 1 (deductive)\n**Author:** Kant\n**Premises:**\n- premise one\n- premise two\n**→ Conclusion:** the conclusion\n*Source: ethics | Importance: 7/10*\n").data

/-- A well-formed block with no importance token (and no source). -/
def argTextNoImp : List Char :=
  ("### Argument 2 (inductive)\n**Author:** Hume\n**Premises:**\n- p1\n- p2\n**→ Conclusion:** c\n").data

/-- A block with a conclusion but zero premises. -/
def argTextZeroPrem : List Char :=
  ("### Argument 1 (deductive)\n**Premises:**\n**→ Conclusion:** c\n").data

/-- A well-formed block with no `**Author:**` line. -/
def argTextNoAuthor : List Char :=
  ("### Argument 1 (deductive)\n**Premises:**\n- p1\n**→ Conclusion:** c\n*Source: logic | Importance: 6/10*\n").data

/-- C4: a block is emitted if and only if it has at least one premise
and a non-empty conclusion, and the emitted record carries exactly the
extracted premises, conclusion and importance; concretely, a two-premise
block yields exactly one record with two premises and `7/10` yields
importance 7, a block without an importance token yields importance 5,
and a zero-premise block is dropped. -/
theorem claim_C4_argument_emission :
    (∀ ty block : List Char,
      (∃ e, parseBlock ty block = some e) ↔
        (premisesOf block ≠ [] ∧ conclusionOf block ≠ [])) ∧
    (∀ ty block e, parseBlock ty block = some e →
      e.premises = premisesOf block ∧ e.conclusion = conclusionOf block ∧
        e.importance = importanceOf block) ∧
    extract_arguments argTextTwoPrem =
      [⟨some "kant".data, "deductive".data,
        ["premise one".data, "premise two".data], "the conclusion".data,
        some "ethics".data, 7⟩] ∧
    extract_arguments argTextNoImp =
      [⟨some "hume".data, "inductive".data, ["p1".data, "p2".data],
        "c".data, none, 5⟩] ∧
    extract_arguments argTextZeroPrem = [] := by
  refine ⟨?_, ?_, by decide, by decide, by decide⟩
  · intro ty block
    constructor
    · rintro ⟨e, he⟩
      unfold parseBlock at he
      by_cases hc : premisesOf block ≠ [] ∧ conclusionOf block ≠ []
      · exact hc
      · rw [if_neg hc] at he
        cases he
    · intro hc
      exact ⟨_, by unfold parseBlock; rw [if_pos hc]⟩
  · intro ty block e he
    unfold parseBlock at he
    by_cases hc : premisesOf block ≠ [] ∧ conclusionOf block ≠ []
    · rw [if_pos hc] at he
      cases he
      exact ⟨rfl, rfl, rfl⟩
    · rw [if_neg hc] at he
      cases he

/-- Witness for C4 at a concrete block body. -/
theorem claim_C4_witness :
    (∃ e, parseBlock "x".data
      ("**Premises:**\n- p\n**→ Conclusion:** c\n").data = some e) ∧
    premisesOf ("**Premises:**\n- p\n**→ Conclusion:** c\n").data ≠ [] ∧
    conclusionOf ("**Premises:**\n- p\n**→ Conclusion:** c\n").data ≠ [] :=
  ⟨(claim_C4_argument_emission.1 "x".data
      ("**Premises:**\n- p\n**→ Conclusion:** c\n").data).mpr
    ⟨by decide, by decide⟩, by decide, by decide⟩

/-- C1 counterexample: at this concrete arguments file the block has no
`**Author:**` match and is extracted with a null thinker, yet the
inserted row carries the filename-derived author `kant` — the fallback
of line 200 IS applied, so the record is not inserted with a null
thinker as the claim asserts. -/
theorem claim_C1_counterexample :
    (extract_arguments argTextNoAuthor).map ArgEntry.thinker = [none] ∧
    parse_filename "kant_arguments_1.txt".data = some "kant".data ∧
    (ingest_arguments_rows "kant_arguments_1.txt".data argTextNoAuthor).map
      (fun rs => rs.map ArgRow.thinker) = some ["kant".data] := by
  refine ⟨by decide, by decide, by decide⟩

/-- C1 (amended): an argument block with no `**Author:**` match is
extracted with a null thinker, but on insertion
`ingest_arguments_file` applies the Python `or` fallback: every
inserted thinker is the extracted value with null (or empty) replaced
by the filename-derived author, and a null extracted thinker is
inserted as the filename-derived author, not as null. -/
theorem claim_C1_null_author_fallback (filename text tfn : List Char)
    (h : parse_filename filename = some tfn) :
    (∀ ty block e, parseBlock ty block = some e →
      searchAuthor block = none → e.thinker = none) ∧
    (∀ rows, ingest_arguments_rows filename text = some rows →
      rows.map ArgRow.thinker =
        (extract_arguments text).map (fun e => pyOrOpt e.thinker tfn)) ∧
    pyOrOpt none tfn = tfn := by
  refine ⟨?_, ?_, rfl⟩
  · intro ty block e he hna
    unfold parseBlock at he
    by_cases hc : premisesOf block ≠ [] ∧ conclusionOf block ≠ []
    · rw [if_pos hc] at he
      cases he
      show thinkerOf block = none
      unfold thinkerOf
      rw [hna]
      rfl
    · rw [if_neg hc] at he
      cases he
  · intro rows hr
    unfold ingest_arguments_rows at hr
    rw [h] at hr
    have h2 : ((extract_arguments text).map fun e =>
        ({ thinker := pyOrOpt e.thinker tfn,
           argument_type := e.argument_type, premises := e.premises,
           conclusion := e.conclusion, topic := e.topic,
           importance := e.importance } : ArgRow)) = rows := by
      simpa using hr
    rw [← h2, List.map_map]
    rfl

/-- Witness for C1 at the concrete no-author file. -/
theorem claim_C1_witness :
    parse_filename "kant_arguments_1.txt".data = some "kant".data ∧
    ingest_arguments_rows "kant_arguments_1.txt".data argTextNoAuthor =
      some [⟨"kant".data, "deductive".data, ["p1".data], "c".data,
        some "logic".data, 6⟩] ∧
    ([⟨"kant".data, "deductive".data, ["p1".data], "c".data,
        some "logic".data, 6⟩] : List ArgRow).map ArgRow.thinker =
      (extract_arguments argTextNoAuthor).map
        (fun e => pyOrOpt e.thinker "kant".data) := by
  have hp : parse_filename "kant_arguments_1.txt".data = some "kant".data := by
    decide
  have hr : ingest_arguments_rows "kant_arguments_1.txt".data argTextNoAuthor =
      some [⟨"kant".data, "deductive".data, ["p1".data], "c".data,
        some "logic".data, 6⟩] := by decide
  exact ⟨hp, hr,
    (claim_C1_null_author_fallback "kant_arguments_1.txt".data
      argTextNoAuthor "kant".data hp).2.1 _ hr⟩
